import Mathlib

/-!
Shallow embedding of the csv2jsonl core (the current variants of
processRow / readCsv / jsonPrinter in the repository, the ones exercised
by the test suite) together with proofs of the specification claims.

Go strings are sequences of bytes; every string handled by the program is
valid UTF-8, so they are modelled by Lean String (a list of unicode
scalars).  Go map[string]interface{} is modelled by an association list
with overwrite-on-insert, which has the same lookup semantics.
-/

namespace CsvToJsonl

/-- JSON values as decoded by Go json.Unmarshal into an empty interface.
Objects are Go maps, modelled as association lists with overwrite on
insert; numeric literals are kept as their source text (Go decodes them
to float64; floating point is out of scope here and no claim depends on
numeric value semantics). -/
inductive Json where
  | str  : String → Json
  | num  : String → Json
  | bool : Bool → Json
  | null : Json
  | arr  : List Json → Json
  | obj  : List (String × Json) → Json

/-- Go map assignment m[k] = v: overwrite an existing binding, otherwise
append a new one. -/
def mapInsert (m : List (String × Json)) (k : String) (v : Json) :
    List (String × Json) :=
  match m with
  | [] => [(k, v)]
  | (k2, v2) :: rest =>
      if k2 = k then (k, v) :: rest else (k2, v2) :: mapInsert rest k v

/-- Go map lookup m[k]. -/
def mapLookup (m : List (String × Json)) (k : String) : Option Json :=
  match m with
  | [] => none
  | (k2, v2) :: rest => if k2 = k then some v2 else mapLookup rest k

/-- Code points accepted by Go unicode.IsSpace (the set trimmed by
strings.TrimSpace): ASCII whitespace plus the Unicode space separators
and the line/paragraph separators. -/
def goSpaceCodes : List Nat :=
  [0x9, 0xA, 0xB, 0xC, 0xD, 0x20, 0x85, 0xA0, 0x1680,
   0x2000, 0x2001, 0x2002, 0x2003, 0x2004, 0x2005, 0x2006, 0x2007,
   0x2008, 0x2009, 0x200A, 0x2028, 0x2029, 0x202F, 0x205F, 0x3000]

def isGoSpace (c : Char) : Bool := goSpaceCodes.contains c.toNat

/-- Go strings.TrimSpace on the character list of a string. -/
def trimSpace (l : List Char) : List Char :=
  ((l.dropWhile isGoSpace).reverse.dropWhile isGoSpace).reverse

/-- Number of bytes of the UTF-8 encoding of a character; Go len() of a
string is the sum of these over its characters. -/
def charUtf8Size (c : Char) : Nat :=
  if c.toNat ≤ 0x7F then 1
  else if c.toNat ≤ 0x7FF then 2
  else if c.toNat ≤ 0xFFFF then 3
  else 4

/-- Go len() of a string, via its character list. -/
def utf8Len (l : List Char) : Nat := (l.map charUtf8Size).sum

/-- Go strings.HasPrefix of a one-byte literal: the first byte of the
string equals that byte, which for an ASCII byte is exactly the condition
that the first character equals it. -/
def headIs (l : List Char) (d : Char) : Bool :=
  match l with
  | [] => false
  | c :: _ => c = d

/-- Go strings.HasSuffix of a one-byte ASCII literal: continuation bytes
of a multi-byte character are at least 0x80, so the last byte equals an
ASCII byte exactly when the last character does. -/
def lastIs (l : List Char) (d : Char) : Bool := headIs l.reverse d

/-! JSON parser, modelled from Go encoding/json.Unmarshal into an empty
interface (RFC 8259 grammar, duplicate object keys overwritten, escape
handling including surrogate pairs as in encoding/json). -/

/-- JSON insignificant whitespace (space, tab, newline, carriage return). -/
def isJsonWs (c : Char) : Bool := c = ' ' ∨ c = '\t' ∨ c = '\n' ∨ c = '\r'

def skipWs : List Char → List Char
  | [] => []
  | c :: rest => if isJsonWs c then skipWs rest else c :: rest

def hexDigitVal (c : Char) : Option Nat :=
  if '0' ≤ c ∧ c ≤ '9' then some (c.toNat - '0'.toNat)
  else if 'a' ≤ c ∧ c ≤ 'f' then some (c.toNat - 'a'.toNat + 10)
  else if 'A' ≤ c ∧ c ≤ 'F' then some (c.toNat - 'A'.toNat + 10)
  else none

def hex4 (a b c d : Char) : Option Nat :=
  match hexDigitVal a, hexDigitVal b, hexDigitVal c, hexDigitVal d with
  | some x, some y, some z, some w => some (((x * 16 + y) * 16 + z) * 16 + w)
  | _, _, _, _ => none

/-- Single-character escapes of a JSON string. -/
def escChar (e : Char) : Option Char :=
  if e = '"' then some '"'
  else if e = '\\' then some '\\'
  else if e = '/' then some '/'
  else if e = 'b' then some (Char.ofNat 0x8)
  else if e = 'f' then some (Char.ofNat 0xC)
  else if e = 'n' then some '\n'
  else if e = 'r' then some '\r'
  else if e = 't' then some '\t'
  else none

/-- Body of a JSON string after the opening quote: decoded characters and
the remainder after the closing quote.  Unpaired surrogates decode to
U+FFFD, as in Go encoding/json; raw control characters are rejected.
Every step consumes at least one character, so fuel larger than the
input length never runs out. -/
def parseStringBody : Nat → List Char → Option (List Char × List Char)
  | 0, _ => none
  | _, [] => none
  | Nat.succ fuel, c :: rest =>
    if c = '"' then some ([], rest)
    else if c = '\\' then
      match rest with
      | [] => none
      | e :: rest2 =>
        if e = 'u' then
          match rest2 with
          | a :: b :: c2 :: d :: rest3 =>
            match hex4 a b c2 d with
            | none => none
            | some n =>
              if n < 0xD800 ∨ 0xDFFF < n then
                (parseStringBody fuel rest3).map (fun p => (Char.ofNat n :: p.1, p.2))
              else if n ≤ 0xDBFF then
                match rest3 with
                | '\\' :: 'u' :: a2 :: b2 :: c3 :: d2 :: rest4 =>
                  match hex4 a2 b2 c3 d2 with
                  | some m =>
                    if 0xDC00 ≤ m ∧ m ≤ 0xDFFF then
                      (parseStringBody fuel rest4).map (fun p =>
                        (Char.ofNat (0x10000 + (n - 0xD800) * 0x400 + (m - 0xDC00)) :: p.1, p.2))
                    else (parseStringBody fuel rest3).map (fun p => (Char.ofNat 0xFFFD :: p.1, p.2))
                  | none => (parseStringBody fuel rest3).map (fun p => (Char.ofNat 0xFFFD :: p.1, p.2))
                | _ => (parseStringBody fuel rest3).map (fun p => (Char.ofNat 0xFFFD :: p.1, p.2))
              else (parseStringBody fuel rest3).map (fun p => (Char.ofNat 0xFFFD :: p.1, p.2))
          | _ => none
        else
          match escChar e with
          | some d => (parseStringBody fuel rest2).map (fun p => (d :: p.1, p.2))
          | none => none
    else if c.toNat < 0x20 then none
    else (parseStringBody fuel rest).map (fun p => (c :: p.1, p.2))

/-- Decode a JSON string body with ample fuel. -/
def parseStr (l : List Char) : Option (List Char × List Char) :=
  parseStringBody (l.length + 1) l

/-- Longest digit run at the front of the input. -/
def spanDigits : List Char → List Char × List Char
  | [] => ([], [])
  | c :: rest =>
      if c.isDigit then
        let p := spanDigits rest
        (c :: p.1, p.2)
      else ([], c :: rest)

/-- Fractional part of a JSON number literal, possibly empty. -/
def parseFrac : List Char → Option (List Char × List Char)
  | '.' :: r =>
      match spanDigits r with
      | ([], _) => none
      | (ds, r2) => some ('.' :: ds, r2)
  | l => some ([], l)

/-- Exponent part of a JSON number literal, possibly empty. -/
def parseExp : List Char → Option (List Char × List Char)
  | [] => some ([], [])
  | c :: r =>
      if c = 'e' ∨ c = 'E' then
        let sp : List Char × List Char :=
          match r with
          | s :: r2 => if s = '+' ∨ s = '-' then ([s], r2) else ([], r)
          | [] => ([], r)
        match spanDigits sp.2 with
        | ([], _) => none
        | (ds, r2) => some (c :: (sp.1 ++ ds), r2)
      else some ([], c :: r)

/-- Integer part of a JSON number after the optional sign: 0, or a
nonzero digit followed by digits. -/
def parseIntPart : List Char → Option (List Char × List Char)
  | [] => none
  | c :: r =>
      if c = '0' then some (['0'], r)
      else if c.isDigit then
        let p := spanDigits r
        some (c :: p.1, p.2)
      else none

/-- JSON number literal: text of the literal and the remainder. -/
def parseNumber (l : List Char) : Option (List Char × List Char) :=
  let sn : List Char × List Char :=
    match l with
    | '-' :: r => (['-'], r)
    | _ => ([], l)
  match parseIntPart sn.2 with
  | none => none
  | some (ip, r1) =>
    match parseFrac r1 with
    | none => none
    | some (fp, r2) =>
      match parseExp r2 with
      | none => none
      | some (ep, r3) => some (sn.1 ++ ip ++ fp ++ ep, r3)

mutual

/-- JSON value parser with fuel; every recursive call consumes input, so
fuel larger than the input length never runs out. -/
def parseValue : Nat → List Char → Option (Json × List Char)
  | 0, _ => none
  | Nat.succ fuel, l =>
    match skipWs l with
    | [] => none
    | c :: rest =>
      if c = '\x7b' then
        match skipWs rest with
        | '\x7d' :: r => some (Json.obj [], r)
        | l2 => parseMembers fuel l2 []
      else if c = '[' then
        match skipWs rest with
        | ']' :: r => some (Json.arr [], r)
        | l2 => parseElems fuel l2 []
      else if c = '"' then
        (parseStr rest).map (fun p => (Json.str (String.mk p.1), p.2))
      else if c = 't' then
        match rest with
        | 'r' :: 'u' :: 'e' :: r => some (Json.bool true, r)
        | _ => none
      else if c = 'f' then
        match rest with
        | 'a' :: 'l' :: 's' :: 'e' :: r => some (Json.bool false, r)
        | _ => none
      else if c = 'n' then
        match rest with
        | 'u' :: 'l' :: 'l' :: r => some (Json.null, r)
        | _ => none
      else if c = '-' ∨ c.isDigit then
        (parseNumber (c :: rest)).map (fun p => (Json.num (String.mk p.1), p.2))
      else none

/-- Members of a JSON object after the opening brace (nonempty case),
accumulated into a Go map so that duplicate keys overwrite. -/
def parseMembers : Nat → List Char → List (String × Json) → Option (Json × List Char)
  | 0, _, _ => none
  | Nat.succ fuel, l, acc =>
    match skipWs l with
    | '"' :: rest =>
      match parseStr rest with
      | none => none
      | some (key, r1) =>
        match skipWs r1 with
        | ':' :: r2 =>
          match parseValue fuel r2 with
          | none => none
          | some (v, r3) =>
            match skipWs r3 with
            | ',' :: r4 => parseMembers fuel r4 (mapInsert acc (String.mk key) v)
            | '\x7d' :: r4 => some (Json.obj (mapInsert acc (String.mk key) v), r4)
            | _ => none
        | _ => none
    | _ => none

/-- Elements of a JSON array after the opening bracket (nonempty case). -/
def parseElems : Nat → List Char → List Json → Option (Json × List Char)
  | 0, _, _ => none
  | Nat.succ fuel, l, acc =>
    match parseValue fuel l with
    | none => none
    | some (v, r1) =>
      match skipWs r1 with
      | ',' :: r2 => parseElems fuel r2 (acc ++ [v])
      | ']' :: r2 => some (Json.arr (acc ++ [v]), r2)
      | _ => none

end

/-- Toplevel parse, modelled from Go json.Unmarshal: one value, then only
whitespace may remain. -/
def parseJson (l : List Char) : Option Json :=
  match parseValue (2 * l.length + 4) l with
  | some (v, rest) => if skipWs rest = [] then some v else none
  | none => none

example : parseJson "\x7b\x7d".toList = some (Json.obj []) := rfl
example : parseJson "\x7b\"key\": \"value\"\x7d".toList
    = some (Json.obj [("key", Json.str "value")]) := rfl
example : parseJson "[1, 2]".toList
    = some (Json.arr [Json.num "1", Json.num "2"]) := rfl
example : parseJson "\x7b\"invalid\": json\x7d".toList = none := rfl

/-- Go jsonPrinter: trim surrounding whitespace; when the trimmed text
has byte length above one and carries a matching bracket pair, try to
parse it as JSON and on success return the decoded structure; in every
other case return the original, untrimmed cell text as a string. -/
def jsonPrinter (colCell : String) : Json :=
  let t := trimSpace colCell.toList
  if 1 < utf8Len t ∧ ((headIs t '{' ∧ lastIs t '}') ∨ (headIs t '[' ∧ lastIs t ']')) then
    match parseJson t with
    | some v => v
    | none => Json.str colCell
  else Json.str colCell

/-- Go rawPrinter: the cell text unchanged. -/
def rawPrinter (colCell : String) : Json := Json.str colCell

/-- Loop of the no-selection branch of processRow: for i, cell in row,
when a column name exists at i, assign data[columns[i]] = printer cell. -/
def projectAll (printer : String → Json) (columns : List String) :
    Nat → List (String × Json) → List String → List (String × Json)
  | _, data, [] => data
  | i, data, cell :: rest =>
      projectAll printer columns (i + 1)
        (if i < columns.length then mapInsert data (columns.getD i "") (printer cell)
         else data) rest

/-- Loop of the multi-selection branch of processRow: like projectAll but
only for column names contained in requiredCols. -/
def projectSel (printer : String → Json) (columns requiredCols : List String) :
    Nat → List (String × Json) → List String → List (String × Json)
  | _, data, [] => data
  | i, data, cell :: rest =>
      projectSel printer columns requiredCols (i + 1)
        (if i < columns.length ∧ requiredCols.contains (columns.getD i "")
         then mapInsert data (columns.getD i "") (printer cell)
         else data) rest

/-- Loop of the single-selection branch of processRow: return the
JSON-sniffed cell at the first index whose column name equals the single
requested column, or nothing. -/
def selectSingle (columns : List String) (c : String) :
    Nat → List String → Option Json
  | _, [] => none
  | i, cell :: rest =>
      if i < columns.length ∧ c = columns.getD i "" then some (jsonPrinter cell)
      else selectSingle columns c (i + 1) rest

/-- Go processRow(columns, row, requiredCols, pretty): the row
transformer, switching on the number of required columns. -/
def processRow (columns row requiredCols : List String) (pretty : Bool) :
    Option Json :=
  let dataPrinter := if pretty then jsonPrinter else rawPrinter
  match requiredCols with
  | [] => some (Json.obj (projectAll dataPrinter columns 0 [] row))
  | [c] => selectSingle columns c 0 row
  | _ => some (Json.obj (projectSel dataPrinter columns requiredCols 0 [] row))

/-- Outcome of one csvReader.Read() call: a record, end of input, or a
non-EOF read error. -/
inductive CsvRead where
  | ok : List String → CsvRead
  | eof : CsvRead
  | fail : CsvRead
  deriving DecidableEq

/-- Hard errors returned by readCsv. -/
inductive ReadCsvError where
  | headerRead : ReadCsvError
  | emptyHeader : ReadCsvError
  deriving DecidableEq

/-- UTF-8 byte-order mark, the CSVHeader constant: bytes EF BB BF, which
as a unicode string is the single character U+FEFF. -/
def bomChar : Char := '\uFEFF'

/-- BOM normalization of readCsv: Go tests len(columns[0]) >= 3 and
columns[0][:3] == CSVHeader, then slices columns[0] = columns[0][3:].
For a valid UTF-8 string the first three bytes are EF BB BF exactly when
the first character is U+FEFF (a three-byte character), and dropping
those three bytes drops that character, so the byte-level test and slice
are modelled on the first character. -/
def stripBomColumns : List String → List String
  | [] => []
  | c :: rest =>
      match c.toList with
      | ch :: l => if ch = bomChar then String.mk l :: rest else c :: rest
      | [] => c :: rest

/-- Production loop of readCsv: reads records until end of input, a read
error, or the row limit; skips empty records without counting them;
counts each accepted record, stops before emitting once the counter
passes a positive limit; emits every non-nil processRow result in input
order. -/
def readRows (columns requiredCols : List String) (limit : Int) (pretty : Bool) :
    Nat → List CsvRead → List Json
  | _, [] => []
  | _, CsvRead.eof :: _ => []
  | _, CsvRead.fail :: _ => []
  | rows, CsvRead.ok row :: rest =>
      if row.isEmpty then readRows columns requiredCols limit pretty rows rest
      else if 0 < limit ∧ limit < ((rows + 1 : Nat) : Int) then []
      else
        match processRow columns row requiredCols pretty with
        | some v => v :: readRows columns requiredCols limit pretty (rows + 1) rest
        | none => readRows columns requiredCols limit pretty (rows + 1) rest

/-- Go readCsv, with the tokenizer abstracted as its sequence of read
outcomes: the first read is the header line, the remaining reads feed
the production loop.  A failed header read (including empty input, where
the read reports end of input) is wrapped into a hard error; a header
with zero columns is a hard error; otherwise the BOM-normalized header
drives the loop and the emitted values are returned. -/
def readCsv (header : CsvRead) (reads : List CsvRead)
    (requiredCols : List String) (limit : Int) (pretty : Bool) :
    Except ReadCsvError (List Json) :=
  match header with
  | CsvRead.ok columns =>
      if columns.isEmpty then Except.error ReadCsvError.emptyHeader
      else Except.ok (readRows (stripBomColumns columns) requiredCols limit pretty 0 reads)
  | _ => Except.error ReadCsvError.headerRead

example :
    processRow ["name", "age", "city"] ["Alice", "25", "New York"] [] false
      = some (Json.obj [("name", Json.str "Alice"), ("age", Json.str "25"),
          ("city", Json.str "New York")]) := rfl

example :
    processRow ["name", "age", "city"] ["Alice", "25", "New York"] ["name"] false
      = some (Json.str "Alice") := rfl

example :
    processRow ["name", "age", "city"] ["Alice", "25", "New York"]
        ["name", "city"] false
      = some (Json.obj [("name", Json.str "Alice"), ("city", Json.str "New York")]) := rfl

example :
    processRow ["data"] ["\x7b\"key\": \"value\"\x7d"] ["data"] true
      = some (Json.obj [("key", Json.str "value")]) := rfl

example :
    processRow ["name", "age"] ["Alice", "25"] ["nonexistent"] false = none := rfl

example :
    readCsv (CsvRead.ok ["name", "age"]) [CsvRead.ok ["Alice", "25"],
        CsvRead.ok ["Bob", "30"], CsvRead.ok ["Charlie", "35"], CsvRead.eof]
      [] 2 false
    = Except.ok [Json.obj [("name", Json.str "Alice"), ("age", Json.str "25")],
        Json.obj [("name", Json.str "Bob"), ("age", Json.str "30")]] := rfl

example :
    readCsv (CsvRead.ok [String.mk (bomChar :: "name".toList), "age"])
        [CsvRead.ok ["Alice", "25"], CsvRead.eof] [] 0 false
    = Except.ok [Json.obj [("name", Json.str "Alice"), ("age", Json.str "25")]] := rfl

example : readCsv CsvRead.eof [] [] 0 false
    = Except.error ReadCsvError.headerRead := rfl

/-! Lookup lemmas for the Go map model. -/

theorem mapLookup_mapInsert_self (m : List (String × Json)) (k : String) (v : Json) :
    mapLookup (mapInsert m k v) k = some v := by
  induction m with
  | nil => simp [mapInsert, mapLookup]
  | cons p rest ih =>
      obtain ⟨k2, v2⟩ := p
      by_cases h : k2 = k
      · simp [mapInsert, mapLookup, h]
      · simp [mapInsert, mapLookup, h, ih]

theorem mapLookup_mapInsert_ne (m : List (String × Json)) (k k2 : String) (v : Json)
    (h : k ≠ k2) : mapLookup (mapInsert m k v) k2 = mapLookup m k2 := by
  induction m with
  | nil =>
      simp only [mapInsert, mapLookup]
      rw [if_neg h]
  | cons p rest ih =>
      obtain ⟨k3, v3⟩ := p
      by_cases h3 : k3 = k
      · subst h3
        simp [mapInsert, mapLookup, h]
      · simp [mapInsert, mapLookup, h3, ih]

/-- Cell of the row at the last index from i on at which a column name
exists and equals k; this is the binding that survives the Go map writes
of the projection loops. -/
def lastHit (columns : List String) (k : String) : Nat → List String → Option String
  | _, [] => none
  | i, cell :: rest =>
      match lastHit columns k (i + 1) rest with
      | some c => some c
      | none =>
          if i < columns.length ∧ columns.getD i "" = k then some cell else none

theorem mapLookup_projectAll (p : String → Json) (cols : List String) (k : String) :
    ∀ (row : List String) (i : Nat) (data : List (String × Json)),
      mapLookup (projectAll p cols i data row) k
        = match lastHit cols k i row with
          | some cell => some (p cell)
          | none => mapLookup data k := by
  intro row
  induction row with
  | nil => intro i data; rfl
  | cons cell rest ih =>
      intro i data
      rw [projectAll, ih]
      cases h : lastHit cols k (i + 1) rest with
      | some c => simp [lastHit, h]
      | none =>
          simp only [lastHit, h]
          by_cases hlen : i < cols.length
          · by_cases hk : cols.getD i "" = k
            · rw [if_pos hlen, if_pos (And.intro hlen hk), hk]
              exact mapLookup_mapInsert_self data k (p cell)
            · rw [if_pos hlen, if_neg (fun hh => hk hh.2)]
              exact mapLookup_mapInsert_ne data _ k (p cell) hk
          · rw [if_neg hlen, if_neg (fun hh => hlen hh.1)]

theorem mapLookup_projectSel (p : String → Json) (cols req : List String) (k : String) :
    ∀ (row : List String) (i : Nat) (data : List (String × Json)),
      mapLookup (projectSel p cols req i data row) k
        = if req.contains k then
            (match lastHit cols k i row with
             | some cell => some (p cell)
             | none => mapLookup data k)
          else mapLookup data k := by
  intro row
  induction row with
  | nil => intro i data; simp [projectSel, lastHit]
  | cons cell rest ih =>
      intro i data
      rw [projectSel, ih]
      by_cases hc : req.contains k
      · rw [if_pos hc, if_pos hc]
        cases h : lastHit cols k (i + 1) rest with
        | some c => simp [lastHit, h]
        | none =>
            simp only [lastHit, h]
            by_cases hlen : i < cols.length
            · by_cases hk : cols.getD i "" = k
              · have hsel : req.contains (cols.getD i "") = true := by rw [hk]; exact hc
                rw [if_pos (And.intro hlen hsel), if_pos (And.intro hlen hk), hk]
                exact mapLookup_mapInsert_self data k (p cell)
              · rw [if_neg (show ¬(i < cols.length ∧ cols.getD i "" = k) from
                  fun hh => hk hh.2)]
                by_cases hsel : req.contains (cols.getD i "") = true
                · rw [if_pos (And.intro hlen hsel)]
                  exact mapLookup_mapInsert_ne data _ k (p cell) hk
                · rw [if_neg (show ¬(i < cols.length ∧
                    req.contains (cols.getD i "") = true) from fun hh => hsel hh.2)]
            · rw [if_neg (fun hh => hlen hh.1), if_neg (fun hh => hlen hh.1)]
      · rw [if_neg hc, if_neg hc]
        by_cases hlen : i < cols.length
        · by_cases hsel : req.contains (cols.getD i "") = true
          · have hne : cols.getD i "" ≠ k := by
              intro h2
              rw [h2] at hsel
              exact hc hsel
            rw [if_pos (And.intro hlen hsel)]
            exact mapLookup_mapInsert_ne data _ k (p cell) hne
          · rw [if_neg (fun hh => hsel hh.2)]
        · rw [if_neg (fun hh => hlen hh.1)]

theorem lastHit_eq_none (cols : List String) (k : String) :
    ∀ (row : List String) (i : Nat),
      (∀ t, t < row.length → ¬(i + t < cols.length ∧ cols.getD (i + t) "" = k)) →
      lastHit cols k i row = none := by
  intro row
  induction row with
  | nil => intro i _; rfl
  | cons cell rest ih =>
      intro i h
      have hrest : lastHit cols k (i + 1) rest = none := by
        apply ih
        intro t ht
        have := h (t + 1) (by simpa using Nat.succ_lt_succ ht)
        simpa [Nat.add_assoc, Nat.add_comm 1 t] using this
      have hhere := h 0 (Nat.succ_pos _)
      simp only [Nat.add_zero] at hhere
      rw [lastHit, hrest]
      exact if_neg hhere

theorem lastHit_isSome (cols : List String) (k : String) :
    ∀ (row : List String) (i : Nat),
      (lastHit cols k i row).isSome
        ↔ ∃ t, t < row.length ∧ i + t < cols.length ∧ cols.getD (i + t) "" = k := by
  intro row
  induction row with
  | nil => intro i; simp [lastHit]
  | cons cell rest ih =>
      intro i
      constructor
      · intro h
        by_cases hrest : (lastHit cols k (i + 1) rest).isSome
        · obtain ⟨t, ht, hlen, hk⟩ := (ih (i + 1)).mp hrest
          exact ⟨t + 1, by simpa using Nat.succ_lt_succ ht,
            by simpa [Nat.add_assoc, Nat.add_comm 1 t] using hlen,
            by simpa [Nat.add_assoc, Nat.add_comm 1 t] using hk⟩
        · rw [Option.not_isSome_iff_eq_none] at hrest
          rw [lastHit, hrest] at h
          by_cases hcond : i < cols.length ∧ cols.getD i "" = k
          · exact ⟨0, Nat.succ_pos _, by simpa using hcond.1, by simpa using hcond.2⟩
          · have h2 : (if i < cols.length ∧ cols.getD i "" = k then some cell
                else (none : Option String)).isSome = true := h
            rw [if_neg hcond] at h2
            simp at h2
      · rintro ⟨t, ht, hlen, hk⟩
        by_cases hrest : lastHit cols k (i + 1) rest = none
        · have hcond : i < cols.length ∧ cols.getD i "" = k := by
            rcases t with _ | s
            · simpa using And.intro hlen hk
            · exfalso
              have : ∀ u, u < rest.length → ¬(i + 1 + u < cols.length ∧ cols.getD (i + 1 + u) "" = k) := by
                intro u hu hcontra
                have hsome : (lastHit cols k (i + 1) rest).isSome :=
                  (ih (i + 1)).mpr ⟨u, hu, hcontra.1, hcontra.2⟩
                rw [hrest] at hsome
                simp at hsome
              have hs : s < rest.length := by simpa using Nat.lt_of_succ_lt_succ ht
              exact this s hs ⟨by simpa [Nat.add_assoc, Nat.add_comm 1 s] using hlen,
                by simpa [Nat.add_assoc, Nat.add_comm 1 s] using hk⟩
          rw [lastHit, hrest]
          show (if i < cols.length ∧ cols.getD i "" = k then some cell
              else (none : Option String)).isSome = true
          rw [if_pos hcond]
          rfl
        · rw [← Option.not_isSome_iff_eq_none, Classical.not_not] at hrest
          obtain ⟨c, hc⟩ := Option.isSome_iff_exists.mp hrest
          rw [lastHit, hc]
          rfl

theorem lastHit_eq_last (cols : List String) (k : String) :
    ∀ (row : List String) (i t0 : Nat),
      t0 < row.length → i + t0 < cols.length → cols.getD (i + t0) "" = k →
      (∀ t, t0 < t → t < row.length → ¬(i + t < cols.length ∧ cols.getD (i + t) "" = k)) →
      lastHit cols k i row = some (row.getD t0 "") := by
  intro row
  induction row with
  | nil => intro i t0 h; exact absurd h (by simp)
  | cons cell rest ih =>
      intro i t0 ht0 hlen hk hlast
      rcases t0 with _ | s
      · have hrest : lastHit cols k (i + 1) rest = none := by
          apply lastHit_eq_none
          intro t ht hcontra
          exact hlast (t + 1) (Nat.succ_pos _) (by simpa using Nat.succ_lt_succ ht)
            ⟨by simpa [Nat.add_assoc, Nat.add_comm 1 t] using hcontra.1,
             by simpa [Nat.add_assoc, Nat.add_comm 1 t] using hcontra.2⟩
        simp only [Nat.add_zero] at hlen hk
        rw [lastHit, hrest]
        show (if i < cols.length ∧ cols.getD i "" = k then some cell
            else (none : Option String)) = some ((cell :: rest).getD 0 "")
        rw [if_pos (And.intro hlen hk)]
        rfl
      · have hrest : lastHit cols k (i + 1) rest = some (rest.getD s "") := by
          apply ih (i + 1) s (by simpa using Nat.lt_of_succ_lt_succ ht0)
            (by simpa [Nat.add_assoc, Nat.add_comm 1 s] using hlen)
            (by simpa [Nat.add_assoc, Nat.add_comm 1 s] using hk)
          intro t hst ht hcontra
          exact hlast (t + 1) (Nat.succ_lt_succ hst) (by simpa using Nat.succ_lt_succ ht)
            ⟨by simpa [Nat.add_assoc, Nat.add_comm 1 t] using hcontra.1,
             by simpa [Nat.add_assoc, Nat.add_comm 1 t] using hcontra.2⟩
        rw [lastHit, hrest]
        rfl

theorem selectSingle_eq_none (cols : List String) (c : String) :
    ∀ (row : List String) (i : Nat),
      (∀ t, t < row.length → ¬(i + t < cols.length ∧ c = cols.getD (i + t) "")) →
      selectSingle cols c i row = none := by
  intro row
  induction row with
  | nil => intro i _; rfl
  | cons cell rest ih =>
      intro i h
      have hhere := h 0 (Nat.succ_pos _)
      simp only [Nat.add_zero] at hhere
      rw [selectSingle, if_neg hhere]
      apply ih
      intro t ht hcontra
      exact h (t + 1) (by simpa using Nat.succ_lt_succ ht)
        ⟨by simpa [Nat.add_assoc, Nat.add_comm 1 t] using hcontra.1,
         by simpa [Nat.add_assoc, Nat.add_comm 1 t] using hcontra.2⟩

theorem selectSingle_eq_first (cols : List String) (c : String) :
    ∀ (row : List String) (i t0 : Nat),
      t0 < row.length → i + t0 < cols.length → c = cols.getD (i + t0) "" →
      (∀ t, t < t0 → c ≠ cols.getD (i + t) "") →
      selectSingle cols c i row = some (jsonPrinter (row.getD t0 "")) := by
  intro row
  induction row with
  | nil => intro i t0 h; exact absurd h (by simp)
  | cons cell rest ih =>
      intro i t0 ht0 hlen hk hfirst
      rcases t0 with _ | s
      · simp only [Nat.add_zero] at hlen hk
        rw [selectSingle, if_pos (And.intro hlen hk)]
        rfl
      · have hhere : ¬(i < cols.length ∧ c = cols.getD i "") := by
          intro hh
          exact hfirst 0 (Nat.succ_pos _) (by simpa using hh.2)
        rw [selectSingle, if_neg hhere]
        exact ih (i + 1) s (by simpa using Nat.lt_of_succ_lt_succ ht0)
          (by simpa [Nat.add_assoc, Nat.add_comm 1 s] using hlen)
          (by simpa [Nat.add_assoc, Nat.add_comm 1 s] using hk)
          (fun t ht => by
            have := hfirst (t + 1) (Nat.succ_lt_succ ht)
            simpa [Nat.add_assoc, Nat.add_comm 1 t] using this)

/-! Unfolding equations of processRow per selection mode. -/

theorem processRow_no_selection (cols row : List String) (pretty : Bool) :
    processRow cols row [] pretty
      = some (Json.obj (projectAll (if pretty then jsonPrinter else rawPrinter)
          cols 0 [] row)) := rfl

theorem processRow_single_selection (cols row : List String) (c : String) (pretty : Bool) :
    processRow cols row [c] pretty = selectSingle cols c 0 row := rfl

theorem processRow_multi_selection (cols row : List String) (a b : String)
    (req2 : List String) (pretty : Bool) :
    processRow cols row (a :: b :: req2) pretty
      = some (Json.obj (projectSel (if pretty then jsonPrinter else rawPrinter)
          cols (a :: b :: req2) 0 [] row)) := rfl

theorem processRow_isSome (cols row req : List String) (pretty : Bool)
    (h : req.length ≠ 1) : (processRow cols row req pretty).isSome := by
  rcases req with _ | ⟨a, _ | ⟨b, r⟩⟩
  · rfl
  · exact absurd rfl h
  · rfl

/-! Lemmas about the production loop. -/

theorem readRows_append_stop (cols req : List String) (L : Int) (pretty : Bool) :
    ∀ (rows : List (List String)) (tail : List CsvRead) (n : Nat),
      (∀ m, readRows cols req L pretty m tail = []) →
      readRows cols req L pretty n (rows.map CsvRead.ok ++ tail)
        = readRows cols req L pretty n (rows.map CsvRead.ok) := by
  intro rows
  induction rows with
  | nil =>
      intro tail n hstop
      simpa using hstop n
  | cons row rs ih =>
      intro tail n hstop
      simp only [List.map_cons, List.cons_append]
      rw [readRows, readRows]
      by_cases h1 : row.isEmpty
      · rw [if_pos h1, if_pos h1]
        exact ih tail n hstop
      · rw [if_neg h1, if_neg h1]
        by_cases h2 : 0 < L ∧ L < ((n + 1 : Nat) : Int)
        · rw [if_pos h2, if_pos h2]
        · rw [if_neg h2, if_neg h2]
          cases hp : processRow cols row req pretty with
          | some v =>
              simp only [hp]
              rw [ih tail (n + 1) hstop]
          | none =>
              simp only [hp]
              exact ih tail (n + 1) hstop

theorem readRows_take (cols req : List String) (pretty : Bool) (l2 : Nat)
    (hl : 0 < l2) :
    ∀ (rows : List (List String)) (n : Nat),
      (∀ r ∈ rows, r ≠ []) →
      readRows cols req (l2 : Int) pretty n (rows.map CsvRead.ok)
        = (rows.take (l2 - n)).filterMap
            (fun r => processRow cols r req pretty) := by
  intro rows
  induction rows with
  | nil => intro n _; simp [readRows]
  | cons row rs ih =>
      intro n hne
      have hrow : ¬ row.isEmpty = true := by
        have := hne row (List.mem_cons_self _ _)
        simpa [List.isEmpty_iff] using this
      have hnetail : ∀ r ∈ rs, r ≠ [] := fun r hr => hne r (List.mem_cons_of_mem _ hr)
      simp only [List.map_cons]
      rw [readRows, if_neg hrow]
      by_cases h2 : l2 ≤ n
      · have hc : 0 < (l2 : Int) ∧ (l2 : Int) < ((n + 1 : Nat) : Int) :=
          ⟨by exact_mod_cast hl, by exact_mod_cast Nat.lt_succ_of_le h2⟩
        rw [if_pos hc]
        rw [Nat.sub_eq_zero_of_le h2]
        simp
      · have hc : ¬(0 < (l2 : Int) ∧ (l2 : Int) < ((n + 1 : Nat) : Int)) := by
          intro hcc
          have h3 : l2 < n + 1 := by exact_mod_cast hcc.2
          omega
        rw [if_neg hc]
        have hsub : l2 - n = (l2 - (n + 1)) + 1 := by omega
        rw [hsub]
        cases hp : processRow cols row req pretty with
        | some v =>
            simp only [hp, List.take_succ_cons, List.filterMap_cons]
            rw [ih (n + 1) hnetail]
        | none =>
            simp only [hp, List.take_succ_cons, List.filterMap_cons]
            rw [ih (n + 1) hnetail]

theorem readRows_unbounded (cols req : List String) (pretty : Bool) (L : Int)
    (hL : L ≤ 0) :
    ∀ (rows : List (List String)) (n : Nat),
      (∀ r ∈ rows, r ≠ []) →
      readRows cols req L pretty n (rows.map CsvRead.ok)
        = rows.filterMap (fun r => processRow cols r req pretty) := by
  intro rows
  induction rows with
  | nil => intro n _; simp [readRows]
  | cons row rs ih =>
      intro n hne
      have hrow : ¬ row.isEmpty = true := by
        have := hne row (List.mem_cons_self _ _)
        simpa [List.isEmpty_iff] using this
      have hnetail : ∀ r ∈ rs, r ≠ [] := fun r hr => hne r (List.mem_cons_of_mem _ hr)
      have hc : ¬(0 < L ∧ L < ((n + 1 : Nat) : Int)) := fun hcc =>
        absurd hcc.1 (not_lt.mpr hL)
      simp only [List.map_cons]
      rw [readRows, if_neg hrow, if_neg hc]
      cases hp : processRow cols row req pretty with
      | some v =>
          simp only [hp, List.filterMap_cons]
          rw [ih (n + 1) hnetail]
      | none =>
          simp only [hp, List.filterMap_cons]
          rw [ih (n + 1) hnetail]

theorem length_filterMap_processRow (cols req : List String) (pretty : Bool)
    (h : req.length ≠ 1) :
    ∀ rows : List (List String),
      (rows.filterMap (fun r => processRow cols r req pretty)).length
        = rows.length := by
  intro rows
  induction rows with
  | nil => rfl
  | cons row rs ih =>
      obtain ⟨v, hv⟩ := Option.isSome_iff_exists.mp
        (processRow_isSome cols row req pretty h)
      simp [List.filterMap_cons, hv, ih]

theorem contains_iff_mem (l : List String) (a : String) :
    l.contains a = true ↔ a ∈ l := by
  induction l with
  | nil => simp [List.contains]
  | cons b t ih => simp [List.contains] at ih ⊢

theorem getD_inj_of_nodup (l : List String) (hnd : l.Nodup) (i j : Nat)
    (hi : i < l.length) (hj : j < l.length) (h : l.getD i "" = l.getD j "") :
    i = j := by
  rw [List.getD_eq_getElem l "" hi, List.getD_eq_getElem l "" hj] at h
  exact (List.Nodup.getElem_inj_iff hnd).mp h

theorem projectSel_stable (p : String → Json) (cols req : List String) :
    ∀ (row : List String) (i : Nat) (data : List (String × Json)),
      (∀ t, t < row.length →
        ¬(i + t < cols.length ∧ req.contains (cols.getD (i + t) "") = true)) →
      projectSel p cols req i data row = data := by
  intro row
  induction row with
  | nil => intro i data _; rfl
  | cons cell rest ih =>
      intro i data h
      have hhere := h 0 (Nat.succ_pos _)
      simp only [Nat.add_zero] at hhere
      rw [projectSel, if_neg hhere]
      apply ih
      intro t ht hcontra
      exact h (t + 1) (by simpa using Nat.succ_lt_succ ht)
        ⟨by simpa [Nat.add_assoc, Nat.add_comm 1 t] using hcontra.1,
         by simpa [Nat.add_assoc, Nat.add_comm 1 t] using hcontra.2⟩

/-! Claims. -/

/-- C1: for every CSV input with header columns and no column selection,
pretty off, each emitted value is an object whose key set equals the
header names at indices present in both the header and the row, and
whose value for each key is the raw, unmodified cell text. -/
theorem claim1_all_columns (columns row : List String) (hnd : columns.Nodup) :
    ∃ m, processRow columns row [] false = some (Json.obj m)
      ∧ (∀ k, (mapLookup m k).isSome = true
          ↔ ∃ j, j < row.length ∧ j < columns.length ∧ columns.getD j "" = k)
      ∧ (∀ j, j < row.length → j < columns.length →
          mapLookup m (columns.getD j "") = some (Json.str (row.getD j ""))) := by
  refine ⟨projectAll rawPrinter columns 0 [] row, rfl, ?_, ?_⟩
  · intro k
    rw [mapLookup_projectAll]
    cases h : lastHit columns k 0 row with
    | some cell =>
        constructor
        · intro _
          obtain ⟨t, ht, hlen, hk⟩ := (lastHit_isSome columns k row 0).mp
            (by rw [h]; rfl)
          exact ⟨t, ht, by simpa using hlen, by simpa using hk⟩
        · intro _; rfl
    | none =>
        constructor
        · intro hh
          simp [mapLookup] at hh
        · rintro ⟨j, hj, hlen, hk⟩
          have hs : (lastHit columns k 0 row).isSome = true :=
            (lastHit_isSome columns k row 0).mpr
              ⟨j, hj, by simpa using hlen, by simpa using hk⟩
          rw [h] at hs
          simp at hs
  · intro j hjr hjc
    rw [mapLookup_projectAll]
    have hlh : lastHit columns (columns.getD j "") 0 row = some (row.getD j "") := by
      apply lastHit_eq_last columns _ row 0 j hjr (by simpa using hjc)
        (by simp)
      intro t hjt htr hcontra
      have ht : t = j := getD_inj_of_nodup columns hnd t j
        (by simpa using hcontra.1) hjc (by simpa using hcontra.2)
      omega
    rw [hlh]
    rfl

/-- C2 counterexample: in single-column mode the code applies the
JSON-sniffing printer unconditionally, also with pretty off, so a cell
holding bracketed JSON is not emitted as its raw text. -/
theorem claim2_counterexample :
    processRow ["data"] ["\x7b\"a\":\"b\"\x7d"] ["data"] false
      ≠ some (Json.str "\x7b\"a\":\"b\"\x7d") := by
  intro h
  have h0 : processRow ["data"] ["\x7b\"a\":\"b\"\x7d"] ["data"] false
      = some (Json.obj [("a", Json.str "b")]) := rfl
  rw [h0] at h
  exact Json.noConfusion (Option.some.inj h)

/-- C2 amended: with exactly one requested column present in the header,
each emitted value equals the JSON-sniffing printer applied to the cell
at the first matching header index, whatever the pretty flag; the value
is not wrapped in an object, and cells that do not sniff as bracketed
JSON come out as their raw text. -/
theorem claim2_amended (columns row : List String) (ck : String) (pretty : Bool)
    (t0 : Nat) (h1 : t0 < row.length) (h2 : t0 < columns.length)
    (h3 : columns.getD t0 "" = ck)
    (hfirst : ∀ t, t < t0 → columns.getD t "" ≠ ck) :
    processRow columns row [ck] pretty = some (jsonPrinter (row.getD t0 "")) := by
  rw [processRow_single_selection]
  apply selectSingle_eq_first columns ck row 0 t0 h1 (by simpa using h2)
    (by simpa using h3.symm)
  intro t ht
  intro he
  exact hfirst t ht (by simpa using he.symm)

theorem claim2_amended_witness :
    processRow ["name", "age", "city"] ["Alice", "25", "New York"] ["name"] false
      = some (Json.str "Alice") := by
  have h := claim2_amended ["name", "age", "city"] ["Alice", "25", "New York"]
    "name" false 0 (by decide) (by decide) rfl
    (fun t ht => absurd ht (Nat.not_lt_zero t))
  exact h.trans rfl

theorem claim1_all_columns_witness :
    ∃ m, processRow ["name", "age"] ["Alice", "25"] [] false = some (Json.obj m)
      ∧ (∀ k, (mapLookup m k).isSome = true
          ↔ ∃ j, j < (["Alice", "25"] : List String).length
              ∧ j < (["name", "age"] : List String).length
              ∧ (["name", "age"] : List String).getD j "" = k)
      ∧ (∀ j, j < (["Alice", "25"] : List String).length
          → j < (["name", "age"] : List String).length
          → mapLookup m ((["name", "age"] : List String).getD j "")
              = some (Json.str ((["Alice", "25"] : List String).getD j ""))) :=
  claim1_all_columns ["name", "age"] ["Alice", "25"] (by decide)

/-- C3: the JSON-sniffing printer returns the original untrimmed string
unless the trimmed text has byte length above one, carries a matching
bracket pair and parses as JSON, in which case it returns the decoded
structure; on parse failure the original string always comes back.  The
three concrete scenarios of the specification are included. -/
theorem claim3_json_sniffing :
    (∀ s : String,
      (¬(1 < utf8Len (trimSpace s.toList)
          ∧ ((headIs (trimSpace s.toList) '{' ∧ lastIs (trimSpace s.toList) '}')
            ∨ (headIs (trimSpace s.toList) '[' ∧ lastIs (trimSpace s.toList) ']'))) →
        jsonPrinter s = Json.str s)
      ∧ (∀ v, (1 < utf8Len (trimSpace s.toList)
          ∧ ((headIs (trimSpace s.toList) '{' ∧ lastIs (trimSpace s.toList) '}')
            ∨ (headIs (trimSpace s.toList) '[' ∧ lastIs (trimSpace s.toList) ']'))) →
          parseJson (trimSpace s.toList) = some v → jsonPrinter s = v)
      ∧ (parseJson (trimSpace s.toList) = none → jsonPrinter s = Json.str s))
    ∧ jsonPrinter "  \x7b\"key\":\"value\"\x7d  " = Json.obj [("key", Json.str "value")]
    ∧ jsonPrinter "\x7b\"invalid\": json\x7d" = Json.str "\x7b\"invalid\": json\x7d"
    ∧ jsonPrinter "plain text" = Json.str "plain text" := by
  refine ⟨?_, rfl, rfl, rfl⟩
  intro s
  refine ⟨?_, ?_, ?_⟩
  · intro hg
    simp only [jsonPrinter]
    rw [if_neg hg]
  · intro v hg hv
    simp only [jsonPrinter]
    rw [if_pos hg, hv]
  · intro hv
    simp only [jsonPrinter]
    by_cases hg : 1 < utf8Len (trimSpace s.toList)
        ∧ ((headIs (trimSpace s.toList) '{' ∧ lastIs (trimSpace s.toList) '}')
          ∨ (headIs (trimSpace s.toList) '[' ∧ lastIs (trimSpace s.toList) ']'))
    · rw [if_pos hg, hv]
    · rw [if_neg hg]

theorem claim3_json_sniffing_witness : jsonPrinter "ab" = Json.str "ab" :=
  (claim3_json_sniffing.1 "ab").1 (by decide)

/-- C4 counterexample: with a single requested column absent from the
header, a one-row input under limit one emits zero values, not
min(limit, rows) = one; the claim as stated does not hold for every
selection mode. -/
theorem claim4_counterexample :
    readCsv (CsvRead.ok ["a"]) [CsvRead.ok ["x"], CsvRead.eof] ["b"] 1 false
      = Except.ok []
    ∧ min 1 1 = 1 := ⟨rfl, rfl⟩

/-- C4 amended: with limit L above zero, exactly min(L, N) data rows are
accepted and transformed in original input order, the row whose counter
first exceeds L is never reached, and whenever the selection mode cannot
skip rows (requiredCols length different from one) exactly min(L, N)
values are emitted. -/
theorem claim4_amended (columns req : List String) (pretty : Bool)
    (rows : List (List String)) (l2 : Nat) (hl : 0 < l2)
    (hne : ∀ r ∈ rows, r ≠ []) :
    readRows columns req (l2 : Int) pretty 0 (rows.map CsvRead.ok ++ [CsvRead.eof])
      = (rows.take (min l2 rows.length)).filterMap
          (fun r => processRow columns r req pretty)
    ∧ (req.length ≠ 1 →
        (readRows columns req (l2 : Int) pretty 0
            (rows.map CsvRead.ok ++ [CsvRead.eof])).length = min l2 rows.length) := by
  have hstop : ∀ m, readRows columns req (l2 : Int) pretty m [CsvRead.eof] = [] :=
    fun m => rfl
  have e1 := readRows_append_stop columns req (l2 : Int) pretty rows [CsvRead.eof] 0 hstop
  have e2 := readRows_take columns req pretty l2 hl rows 0 hne
  have htake : rows.take (l2 - 0) = rows.take (min l2 rows.length) := by
    rw [Nat.sub_zero]
    rcases Nat.le_total l2 rows.length with h | h
    · rw [Nat.min_eq_left h]
    · rw [Nat.min_eq_right h, List.take_of_length_le h, List.take_length]
  have emain : readRows columns req (l2 : Int) pretty 0
      (rows.map CsvRead.ok ++ [CsvRead.eof])
      = (rows.take (min l2 rows.length)).filterMap
          (fun r => processRow columns r req pretty) := by
    rw [e1, e2, htake]
  refine ⟨emain, ?_⟩
  intro hq
  rw [emain, length_filterMap_processRow columns req pretty hq, List.length_take]
  rw [Nat.min_assoc, Nat.min_self]

theorem claim4_amended_witness :
    readRows ["name", "age"] [] ((2 : Nat) : Int) false 0
        ([["Alice", "25"], ["Bob", "30"], ["Charlie", "35"]].map CsvRead.ok
          ++ [CsvRead.eof])
      = (([["Alice", "25"], ["Bob", "30"], ["Charlie", "35"]]
            : List (List String)).take
          (min 2 ([["Alice", "25"], ["Bob", "30"], ["Charlie", "35"]]
            : List (List String)).length)).filterMap
          (fun r => processRow ["name", "age"] r [] false)
    ∧ (([] : List String).length ≠ 1 →
        (readRows ["name", "age"] [] ((2 : Nat) : Int) false 0
            ([["Alice", "25"], ["Bob", "30"], ["Charlie", "35"]].map CsvRead.ok
              ++ [CsvRead.eof])).length
          = min 2 ([["Alice", "25"], ["Bob", "30"], ["Charlie", "35"]]
            : List (List String)).length) :=
  claim4_amended ["name", "age"] [] false
    [["Alice", "25"], ["Bob", "30"], ["Charlie", "35"]] 2 (by decide) (by decide)

/-- C5: the three-byte UTF-8 byte-order mark is stripped from the first
header column exactly when present, no other column is touched, and the
specified BOM input yields the expected single row without the mark
leaking into the first key. -/
theorem claim5_bom :
    (∀ (c : String) (rest : List String) (l : List Char),
        c.toList = bomChar :: l →
          stripBomColumns (c :: rest) = String.mk l :: rest
          ∧ utf8Len c.toList = 3 + utf8Len l)
    ∧ (∀ (c : String) (rest : List String),
        (∀ l, c.toList ≠ bomChar :: l) → stripBomColumns (c :: rest) = c :: rest)
    ∧ readCsv (CsvRead.ok [String.mk (bomChar :: "name".toList), "age"])
        [CsvRead.ok ["Alice", "25"], CsvRead.eof] [] 0 false
      = Except.ok [Json.obj [("name", Json.str "Alice"), ("age", Json.str "25")]] := by
  refine ⟨?_, ?_, rfl⟩
  · intro c rest l h
    constructor
    · simp [stripBomColumns, show c.data = bomChar :: l from h]
    · rw [h]
      have h3 : charUtf8Size bomChar = 3 := by decide
      simp [utf8Len, h3]
  · intro c rest h
    cases hc : c.toList with
    | nil => simp [stripBomColumns, show c.data = [] from hc]
    | cons ch l =>
        have hne : ch ≠ bomChar := fun he => h l (by rw [hc, he])
        simp [stripBomColumns, show c.data = ch :: l from hc, hne]

theorem claim5_bom_witness :
    stripBomColumns [String.mk (bomChar :: "name".toList), "age"]
      = [String.mk "name".toList, "age"]
    ∧ utf8Len (String.mk (bomChar :: "name".toList)).toList
      = 3 + utf8Len "name".toList :=
  claim5_bom.1 (String.mk (bomChar :: "name".toList)) ["age"] "name".toList rfl

/-- C6: readCsv returns a hard error, and then no values at all, exactly
when the header stage fails: a failed header read (including empty input)
gives the header-read error, a zero-column header gives the empty-header
error, and in every other case a value sequence is returned. -/
theorem claim6_header_errors (h : CsvRead) (reads : List CsvRead)
    (req : List String) (L : Int) (pretty : Bool) :
    (readCsv h reads req L pretty = Except.error ReadCsvError.headerRead
        ↔ (h = CsvRead.eof ∨ h = CsvRead.fail))
    ∧ (readCsv h reads req L pretty = Except.error ReadCsvError.emptyHeader
        ↔ h = CsvRead.ok [])
    ∧ ((∃ vs, readCsv h reads req L pretty = Except.ok vs)
        ↔ ∃ cols, h = CsvRead.ok cols ∧ cols ≠ []) := by
  cases h with
  | ok columns =>
      by_cases hc : columns.isEmpty
      · have he : columns = [] := List.isEmpty_iff.mp hc
        subst he
        simp [readCsv]
      · have hne : columns ≠ [] := by simpa [List.isEmpty_iff] using hc
        simp [readCsv, hc, hne]
  | eof => simp [readCsv]
  | fail => simp [readCsv]

/-- C7: when the production loop hits a non-EOF read error after k-1 good
rows, the emitted sequence is exactly the one of the clean prefix: the
values of rows 1..k-1, closed cleanly, with no error value and nothing
retracted. -/
theorem claim7_fail_soft (columns req : List String) (pretty : Bool) (L : Int)
    (rows : List (List String)) (rest : List CsvRead) :
    readRows columns req L pretty 0 (rows.map CsvRead.ok ++ CsvRead.fail :: rest)
      = readRows columns req L pretty 0 (rows.map CsvRead.ok ++ [CsvRead.eof])
    ∧ (L ≤ 0 → (∀ r ∈ rows, r ≠ []) →
        readRows columns req L pretty 0 (rows.map CsvRead.ok ++ CsvRead.fail :: rest)
          = rows.filterMap (fun r => processRow columns r req pretty)) := by
  have hstop1 : ∀ m, readRows columns req L pretty m (CsvRead.fail :: rest) = [] :=
    fun m => rfl
  have hstop2 : ∀ m, readRows columns req L pretty m [CsvRead.eof] = [] :=
    fun m => rfl
  have e1 := readRows_append_stop columns req L pretty rows (CsvRead.fail :: rest) 0 hstop1
  have e2 := readRows_append_stop columns req L pretty rows [CsvRead.eof] 0 hstop2
  refine ⟨e1.trans e2.symm, ?_⟩
  intro hL hne
  rw [e1, readRows_unbounded columns req pretty L hL rows 0 hne]

theorem claim7_fail_soft_witness :
    readRows ["a"] [] 0 false 0
        ([["x"], ["y"]].map CsvRead.ok ++ CsvRead.fail :: [CsvRead.ok ["z"]])
      = ([["x"], ["y"]] : List (List String)).filterMap
          (fun r => processRow ["a"] r [] false) :=
  (claim7_fail_soft ["a"] [] false 0 [["x"], ["y"]] [CsvRead.ok ["z"]]).2
    (le_refl 0) (by decide)

/-- C8: with two or more requested columns, each emitted value is an
object restricted to exactly the keys present in both the header (at an
index the row also has) and the request, each key mapped to the printed
cell of that row. -/
theorem claim8_multi_selection (columns row req : List String) (pretty : Bool)
    (h2 : 2 ≤ req.length) (hnd : columns.Nodup) :
    ∃ m, processRow columns row req pretty = some (Json.obj m)
      ∧ (∀ k, (mapLookup m k).isSome = true
          ↔ (k ∈ req ∧ ∃ j, j < row.length ∧ j < columns.length
              ∧ columns.getD j "" = k))
      ∧ (∀ j, j < row.length → j < columns.length → columns.getD j "" ∈ req →
          mapLookup m (columns.getD j "")
            = some ((if pretty then jsonPrinter else rawPrinter) (row.getD j ""))) := by
  rcases req with _ | ⟨a, _ | ⟨b, r⟩⟩
  · simp at h2
  · simp at h2
  refine ⟨projectSel (if pretty then jsonPrinter else rawPrinter) columns
    (a :: b :: r) 0 [] row, rfl, ?_, ?_⟩
  · intro k
    rw [mapLookup_projectSel]
    by_cases hck : (a :: b :: r).contains k = true
    · rw [if_pos hck]
      have hkmem : k ∈ a :: b :: r := (contains_iff_mem _ _).mp hck
      cases h : lastHit columns k 0 row with
      | some cell =>
          constructor
          · intro _
            obtain ⟨t, ht, hlen, hk⟩ := (lastHit_isSome columns k row 0).mp
              (by rw [h]; rfl)
            exact ⟨hkmem, t, ht, by simpa using hlen, by simpa using hk⟩
          · intro _; rfl
      | none =>
          constructor
          · intro hh
            simp [mapLookup] at hh
          · rintro ⟨_, j, hj, hlen, hk⟩
            have hs := (lastHit_isSome columns k row 0).mpr
              ⟨j, hj, by simpa using hlen, by simpa using hk⟩
            rw [h] at hs
            simp at hs
    · rw [if_neg hck]
      constructor
      · intro hh
        simp [mapLookup] at hh
      · rintro ⟨hkmem, _⟩
        exact absurd ((contains_iff_mem _ _).mpr hkmem) hck
  · intro j hjr hjc hmem
    rw [mapLookup_projectSel, if_pos ((contains_iff_mem _ _).mpr hmem)]
    have hlh : lastHit columns (columns.getD j "") 0 row
        = some (row.getD j "") := by
      apply lastHit_eq_last columns _ row 0 j hjr (by simpa using hjc) (by simp)
      intro t hjt htr hcontra
      have ht : t = j := getD_inj_of_nodup columns hnd t j
        (by simpa using hcontra.1) hjc (by simpa using hcontra.2)
      omega
    rw [hlh]

theorem claim8_multi_selection_witness :
    ∃ m, processRow ["name", "age", "city"] ["Alice", "25", "New York"]
        ["name", "city"] false = some (Json.obj m)
      ∧ (∀ k, (mapLookup m k).isSome = true
          ↔ (k ∈ (["name", "city"] : List String)
              ∧ ∃ j, j < (["Alice", "25", "New York"] : List String).length
                  ∧ j < (["name", "age", "city"] : List String).length
                  ∧ (["name", "age", "city"] : List String).getD j "" = k))
      ∧ (∀ j, j < (["Alice", "25", "New York"] : List String).length
          → j < (["name", "age", "city"] : List String).length
          → (["name", "age", "city"] : List String).getD j ""
              ∈ (["name", "city"] : List String)
          → mapLookup m ((["name", "age", "city"] : List String).getD j "")
              = some ((if false then jsonPrinter else rawPrinter)
                  ((["Alice", "25", "New York"] : List String).getD j ""))) :=
  claim8_multi_selection ["name", "age", "city"] ["Alice", "25", "New York"]
    ["name", "city"] false (by decide) (by decide)

/-- C9: when a column name occurs at two positions i and j with i below j
and the row has cells at both, and j is the last such position, the
emitted object in no-selection and in multi-selection mode maps that name
to the cell at the later position j: later duplicates silently overwrite
earlier ones. -/
theorem claim9_duplicate_overwrite (columns row : List String) (c : String)
    (i j : Nat) (pretty : Bool) (hij : i < j) (hir : i < row.length)
    (hjr : j < row.length) (hjc : j < columns.length)
    (hci : columns.getD i "" = c) (hcj : columns.getD j "" = c)
    (hlast : ∀ t, j < t → t < row.length → t < columns.length →
      columns.getD t "" ≠ c) :
    (∃ m, processRow columns row [] pretty = some (Json.obj m)
        ∧ mapLookup m c
          = some ((if pretty then jsonPrinter else rawPrinter) (row.getD j "")))
    ∧ (∀ req, 2 ≤ req.length → c ∈ req →
        ∃ m, processRow columns row req pretty = some (Json.obj m)
          ∧ mapLookup m c
            = some ((if pretty then jsonPrinter else rawPrinter) (row.getD j ""))) := by
  have hlh : lastHit columns c 0 row = some (row.getD j "") := by
    apply lastHit_eq_last columns c row 0 j hjr (by simpa using hjc)
      (by simpa using hcj)
    intro t hjt htr hcontra
    exact hlast t hjt htr (by simpa using hcontra.1) (by simpa using hcontra.2)
  constructor
  · refine ⟨projectAll (if pretty then jsonPrinter else rawPrinter) columns
      0 [] row, rfl, ?_⟩
    rw [mapLookup_projectAll, hlh]
  · intro req hreq hmem
    rcases req with _ | ⟨a, _ | ⟨b, r⟩⟩
    · simp at hreq
    · simp at hreq
    refine ⟨projectSel (if pretty then jsonPrinter else rawPrinter) columns
      (a :: b :: r) 0 [] row, rfl, ?_⟩
    rw [mapLookup_projectSel, if_pos ((contains_iff_mem _ _).mpr hmem), hlh]

theorem claim9_duplicate_overwrite_witness :
    (∃ m, processRow ["a", "a"] ["1", "2"] [] false = some (Json.obj m)
        ∧ mapLookup m "a" = some ((if false then jsonPrinter else rawPrinter)
            ((["1", "2"] : List String).getD 1 "")))
    ∧ (∀ req, 2 ≤ req.length → "a" ∈ req →
        ∃ m, processRow ["a", "a"] ["1", "2"] req false = some (Json.obj m)
          ∧ mapLookup m "a" = some ((if false then jsonPrinter else rawPrinter)
              ((["1", "2"] : List String).getD 1 ""))) :=
  claim9_duplicate_overwrite ["a", "a"] ["1", "2"] "a" 0 1 false (by decide)
    (by decide) (by decide) (by decide) rfl rfl
    (fun t h1 h2 _ => by
      simp only [List.length_cons, List.length_nil] at h2
      exact absurd h1 (by omega))

/-- C10: in no-selection and multi-selection modes the row transformer
never returns a null result, an all-misses multi-selection row still
yields the empty object, and therefore over a clean unbounded run exactly
one value is emitted per accepted data row. -/
theorem claim10_no_null (columns row req : List String) (pretty : Bool)
    (hreq : req.length ≠ 1) :
    (processRow columns row req pretty).isSome = true
    ∧ (2 ≤ req.length →
        (∀ j, j < row.length → j < columns.length → columns.getD j "" ∉ req) →
        processRow columns row req pretty = some (Json.obj []))
    ∧ (∀ rows : List (List String), (∀ r ∈ rows, r ≠ []) →
        (readRows columns req 0 pretty 0
          (rows.map CsvRead.ok ++ [CsvRead.eof])).length = rows.length) := by
  refine ⟨processRow_isSome columns row req pretty hreq, ?_, ?_⟩
  · intro h2 hnone
    rcases req with _ | ⟨a, _ | ⟨b, r⟩⟩
    · simp at h2
    · simp at h2
    rw [processRow_multi_selection, projectSel_stable]
    intro t ht hcontra
    exact hnone t ht (by simpa using hcontra.1)
      ((contains_iff_mem _ _).mp (by simpa using hcontra.2))
  · intro rows hne
    have hstop : ∀ m, readRows columns req 0 pretty m [CsvRead.eof] = [] :=
      fun m => rfl
    rw [readRows_append_stop columns req 0 pretty rows [CsvRead.eof] 0 hstop,
      readRows_unbounded columns req pretty 0 (le_refl 0) rows 0 hne]
    exact length_filterMap_processRow columns req pretty hreq rows

theorem claim10_no_null_witness :
    (processRow ["a"] ["1"] ["x", "y"] false).isSome = true
    ∧ (2 ≤ (["x", "y"] : List String).length →
        (∀ j, j < (["1"] : List String).length → j < (["a"] : List String).length →
          (["a"] : List String).getD j "" ∉ (["x", "y"] : List String)) →
        processRow ["a"] ["1"] ["x", "y"] false = some (Json.obj []))
    ∧ (∀ rows : List (List String), (∀ r ∈ rows, r ≠ []) →
        (readRows ["a"] ["x", "y"] 0 false 0
          (rows.map CsvRead.ok ++ [CsvRead.eof])).length = rows.length) :=
  claim10_no_null ["a"] ["1"] ["x", "y"] false (by decide)

end CsvToJsonl
